import Mathlib

/-!
Verification of the schedule / custom-type / upcoming-announcement engine of
the Rink-Announcer control panel (src/static/main.js).

Modelling conventions:
* JS strings are lists of characters (`JsStr`); `trim`, `split` and `join`
  are modelled directly on those lists.
* Instants are integer milliseconds since an epoch; days have a fixed length
  of 86400000 ms (local time at a fixed offset; DST is out of scope).
* `Number(s)` is modelled for optionally signed decimal integer strings
  (empty and all-whitespace strings give 0, as in JS); fractional,
  exponential, hexadecimal and Infinity forms are modelled as NaN (`none`).
* A JS `Map` is an insertion-ordered association list with distinct keys.
-/

namespace RinkAnnouncer

/-- JS strings, modelled as lists of characters. -/
abbrev JsStr := List Char

/-- `String.prototype.trim`: strip leading and trailing whitespace. -/
def jsTrim (s : JsStr) : JsStr :=
  ((s.dropWhile Char.isWhitespace).reverse.dropWhile Char.isWhitespace).reverse

/-- `String.prototype.split` with a one-character separator: `splitOnChar c s`
cuts `s` at every occurrence of `c`; the result is never empty, and an empty
input gives `[[]]` (as `"".split(c)` gives `[""]` in JS). -/
def splitOnChar (c : Char) : JsStr → List JsStr
  | [] => [[]]
  | x :: xs =>
    let r := splitOnChar c xs
    if x = c then [] :: r else (x :: r.headD []) :: r.tail

/-- `Array.prototype.join('\n')` on a list of lines. -/
def joinLines : List JsStr → JsStr
  | [] => []
  | [l] => l
  | l :: l' :: ls => l ++ '\n' :: joinLines (l' :: ls)

/-- Value of a string of decimal digits. -/
def digitsVal (s : JsStr) : Nat :=
  s.foldl (fun acc c => acc * 10 + (c.toNat - 48)) 0

/-- Model of JS `Number(s)` restricted to optionally signed decimal integer
strings: surrounding whitespace is ignored, the empty (or all-whitespace)
string is 0, and any other shape is NaN (`none`).  Fractional, exponential,
hexadecimal and Infinity forms are not modelled. -/
def jsNumber (s : JsStr) : Option Int :=
  match jsTrim s with
  | [] => some 0
  | '-' :: rest =>
    if !rest.isEmpty && rest.all Char.isDigit then some (-(digitsVal rest : Int))
    else none
  | '+' :: rest =>
    if !rest.isEmpty && rest.all Char.isDigit then some ((digitsVal rest : Int))
    else none
  | t =>
    if t.all Char.isDigit then some ((digitsVal t : Int)) else none

/-- Association-list lookup keyed on string equality (first match wins). -/
def assocLookup {β : Type} (k : JsStr) : List (JsStr × β) → Option β
  | [] => none
  | p :: rest => if p.1 = k then some p.2 else assocLookup k rest

/-! ## The schedule and custom-type caches (JS `Map`s) -/

/-- A JS `Map` with string keys and string values: an insertion-ordered
association list whose keys are pairwise distinct. -/
abbrev JsMap := List (JsStr × JsStr)

/-- `Map.prototype.set`: if the key is present its value is overwritten in
place (the entry keeps its position), otherwise the entry is appended
(`scheduleEditor.times`, src/static/main.js:536, and the snapshot loops at
679-681 and 1018-1020). -/
def mapSet (m : JsMap) (k v : JsStr) : JsMap :=
  match m with
  | [] => [(k, v)]
  | p :: rest => if p.1 = k then (k, v) :: rest else p :: mapSet rest k v

/-- `clear()` followed by one `set` per snapshot pair, in snapshot order —
the cache-replacement loop of `refreshSchedule` / `refreshState`. -/
def applyInserts (l : List (JsStr × JsStr)) : JsMap :=
  l.foldl (fun m p => mapSet m p.1 p.2) []

/-- The distinct-keys relation of an association list: the invariant a JS
`Map` maintains. -/
def keyNe {β : Type} (p q : JsStr × β) : Prop := p.1 ≠ q.1

instance {β : Type} (p q : JsStr × β) : Decidable (keyNe p q) := by
  unfold keyNe; infer_instance

/-- `String([time, type])` — the string that the default (comparator-less)
`Array.prototype.sort` compares at src/static/main.js:633; a JS array
stringifies by joining its elements with a comma. -/
def entryKey (p : JsStr × JsStr) : JsStr := p.1 ++ ',' :: p.2

/-- The ordering used by `[...this.times.entries()].sort()`: lexicographic
comparison of the entries' string forms. -/
def entryLe (p q : JsStr × JsStr) : Prop := entryKey p ≤ entryKey q

instance : DecidableRel entryLe :=
  fun p q => inferInstanceAs (Decidable (entryKey p ≤ entryKey q))

instance : IsTotal (JsStr × JsStr) entryLe :=
  ⟨fun p q => le_total (entryKey p) (entryKey q)⟩

instance : IsTrans (JsStr × JsStr) entryLe :=
  ⟨fun _ _ _ h h' => le_trans h h'⟩

/-- `[...this.times.entries()].sort()` in `updateScheduleList`
(src/static/main.js:633). -/
def sortedEntries (m : JsMap) : List (JsStr × JsStr) :=
  List.insertionSort entryLe m

/-- One line of the times textarea: `` `${time} = ${type}` ``
(src/static/main.js:656). -/
def entryLine (p : JsStr × JsStr) : JsStr :=
  p.1 ++ (' ' :: '=' :: ' ' :: p.2)

/-- The textual serialization written into the `times` textarea:
the sorted entries rendered one per line and joined with newlines
(src/static/main.js:656). -/
def serializeCache (m : JsMap) : JsStr :=
  joinLines ((sortedEntries m).map entryLine)

/-! ## Type labels -/

/-- The fixed built-in label table used at src/static/main.js:641 and 1120. -/
def typeLabels : List (JsStr × JsStr) :=
  [((":55").data, ("Color Warning").data),
   (("hour").data, ("Hour Change").data),
   (("rules").data, ("Rules").data),
   (("ad").data, ("Advertisement").data)]

/-- The token of custom type references, `"custom:"`. -/
def customPre : JsStr := ("custom:").data

/-- What the label expression can evaluate to: a string (interpolated as
is), or a member inherited from `Object.prototype` — a truthy function (or,
for `__proto__`, the prototype object itself) whose engine stringification,
not the token, is what the template interpolates.  The stringification is
kept opaque; all that matters is that it is not the raw token string. -/
inductive Label where
  | text (s : JsStr)
  | protoMember (name : JsStr)
deriving DecidableEq, Repr

/-- The property names the object literal `{ ':55': …, 'hour': …, 'rules':
…, 'ad': … }` inherits from `Object.prototype` (own properties of
`Object.prototype`, accessors included): a lookup with one of these names
finds the inherited member instead of `undefined`. -/
def objectProtoKeys : List JsStr :=
  [("constructor").data, ("hasOwnProperty").data, ("isPrototypeOf").data,
   ("propertyIsEnumerable").data, ("toLocaleString").data, ("toString").data,
   ("valueOf").data, ("__defineGetter__").data, ("__defineSetter__").data,
   ("__lookupGetter__").data, ("__lookupSetter__").data, ("__proto__").data]

/-- Display-label resolution used both by the schedule list
(src/static/main.js:639-641) and the upcoming list (1144-1146):
`type.startsWith('custom:') ? `Custom: ${type.replace('custom:', '')}`
: typeLabels[type] || type`.  Under the `startsWith` guard the first
occurrence of `"custom:"` is the prefix itself, so the `replace` drops
exactly the first 7 characters.  The bracket access consults the literal's
own four keys first and then the prototype chain: a token naming an
`Object.prototype` member yields that member — truthy, so `|| type` is not
reached and the interpolation renders the member, not the token.  Only a
genuinely absent property gives `undefined`, whose falsiness makes `|| type`
fall back to the raw token. -/
def resolveTypeLabel (token : JsStr) : Label :=
  if customPre.isPrefixOf token then
    Label.text (("Custom: ").data ++ token.drop customPre.length)
  else
    match assocLookup token typeLabels with
    | some lbl => Label.text lbl
    | none =>
      if token ∈ objectProtoKeys then Label.protoMember token
      else Label.text token

/-! ## The upcoming-announcements projector (src/static/main.js:1105-1163) -/

/-- One day in milliseconds. -/
def dayMs : Int := 86400000

/-- One element of the `upcoming` array built at src/static/main.js:1133:
the raw time string, the (possibly absent) type token, the rounded minute
countdown and the occurrence instant. -/
structure RawItem where
  time : JsStr
  type : Option JsStr
  minutesUntil : Int
  scheduleTime : Int
deriving DecidableEq, Repr

/-- Lines 1126-1131: build the candidate occurrence from today's date and the
entry's hour/minute with zero seconds and milliseconds (`setHours(h, m, 0, 0)`,
which also normalizes out-of-range components exactly as integer arithmetic
does), advance it one calendar day if it is strictly earlier than `now`, and
round the distance to `now` to whole minutes (`Math.round`, half toward
positive infinity, is floor after adding half a minute).  Returns
`(scheduleTime, minutesUntil)`. -/
def projectEntry (now h m : Int) : Int × Int :=
  let dayStart := dayMs * (now / dayMs)
  let candidate := dayStart + (h * 60 + m) * 60000
  let scheduleTime := if candidate < now then candidate + dayMs else candidate
  (scheduleTime, (scheduleTime - now + 30000) / 60000)

/-- Line 1124: `line.split('=').map(part => part.trim())` destructured into
`[timeStr, type]`; when the line has no `=`, `type` is `undefined` (`none`). -/
def parseLineTimeType (line : JsStr) : JsStr × Option JsStr :=
  let parts := (splitOnChar '=' line).map jsTrim
  (parts.headD [], (parts.drop 1).head?)

/-- Line 1125: `timeStr.split(':').map(Number)` destructured into
`[hours, minutes]`; a missing or NaN component makes the schedule time
invalid, so both components must parse for the entry to survive. -/
def parseHM (timeStr : JsStr) : Option (Int × Int) :=
  let comps := (splitOnChar ':' timeStr).map jsNumber
  match comps.headD none, (comps.drop 1).headD none with
  | some h, some m => some (h, m)
  | _, _ => none

/-- Lines 1123-1136: one line of the textarea to an upcoming item.  A line
whose time fails to parse yields an invalid date, whose `NaN` comparisons
make the window test false (`none` here); an in-window entry is kept with
whatever (possibly absent) type token the line carried. -/
def lineToItem (now : Int) (line : JsStr) : Option RawItem :=
  match parseHM (parseLineTimeType line).1 with
  | none => none
  | some hm =>
    if (projectEntry now hm.1 hm.2).2 ≤ 60 then
      some ⟨(parseLineTimeType line).1, (parseLineTimeType line).2,
            (projectEntry now hm.1 hm.2).2, (projectEntry now hm.1 hm.2).1⟩
    else none

/-- Lines 1118-1122: `timesTextarea.value.trim().split('\n')` filtered to the
lines that are nonempty after trimming. -/
def keptLines (text : JsStr) : List JsStr :=
  (splitOnChar '\n' (jsTrim text)).filter (fun l => !(jsTrim l).isEmpty)

/-- The comparator of line 1138: `(a, b) => a.scheduleTime - b.scheduleTime`. -/
def occLe (a b : RawItem) : Prop := a.scheduleTime ≤ b.scheduleTime

instance : DecidableRel occLe :=
  fun a b => inferInstanceAs (Decidable (a.scheduleTime ≤ b.scheduleTime))

/-- The `upcoming` array of src/static/main.js:1121-1138: parse every kept
line, drop the ones outside the 60-minute window, sort by occurrence. -/
def updateUpcomingList (now : Int) (text : JsStr) : List RawItem :=
  List.insertionSort occLe ((keptLines text).filterMap (lineToItem now))

/-- The render loop of lines 1143-1162 reduced to its fallible core: for each
item it evaluates `type.startsWith('custom:')`, which throws a TypeError when
`type` is `undefined`; otherwise the item renders with its resolved label.
`Except.error ()` models the thrown exception. -/
def renderItems : List RawItem → Except Unit (List Label)
  | [] => Except.ok []
  | it :: rest =>
    match it.type with
    | none => Except.error ()
    | some t =>
      match renderItems rest with
      | Except.error e => Except.error e
      | Except.ok ls => Except.ok (resolveTypeLabel t :: ls)

/-- The parse of the serialization as the projector performs it (split on
`=`, trim both sides), keeping the line structure: the inverse direction of
the round-trip property. -/
def parseSchedText (text : JsStr) : List (JsStr × Option JsStr) :=
  (keptLines text).map parseLineTimeType

/-! ## The sync flows (src/static/main.js:560-705 and 1006-1043) -/

/-- The snapshot returned by `/get_current_schedule` / `/update_schedule`:
the `times` mapping and, when present, the `custom_types` mapping. -/
structure Snapshot where
  times : List (JsStr × JsStr)
  custom_types : Option (List (JsStr × JsStr))
deriving DecidableEq

/-- The client-side state the flows touch: the two caches, the two textarea
serializations, and the rendered upcoming projection. -/
structure ClientState where
  times : JsMap
  customTypesMap : JsMap
  timesText : JsStr
  typesText : JsStr
  upcoming : List RawItem
deriving DecidableEq

/-- The custom-types textarea serialization (src/static/main.js:800):
one `name = template` line per entry in insertion order. -/
def serializeTypes (m : JsMap) : JsStr :=
  joinLines (m.map entryLine)

/-- The snapshot-application path shared by `refreshSchedule`
(src/static/main.js:677-695) and `refreshState` (1016-1035): clear and
repopulate the schedule cache, rewrite its serialization, do the same for
custom types when the snapshot carries them, then recompute the upcoming
projection from the fresh serialization at instant `now`. -/
def applySnapshot (snap : Snapshot) (now : Int) (st : ClientState) : ClientState :=
  let times' := applyInserts snap.times
  let timesText' := serializeCache times'
  let st' :=
    match snap.custom_types with
    | some cts =>
      { st with
        times := times'
        timesText := timesText'
        customTypesMap := applyInserts cts
        typesText := serializeTypes (applyInserts cts) }
    | none =>
      { st with times := times', timesText := timesText' }
  { st' with upcoming := updateUpcomingList now st'.timesText }

/-- `refreshSchedule` (src/static/main.js:663-704): on a transport or server
error the caches are untouched; on success the snapshot is applied
wholesale. -/
def refreshScheduleFlow (resp : Except JsStr Snapshot) (now : Int)
    (st : ClientState) : ClientState :=
  match resp with
  | Except.error _ => st
  | Except.ok snap => applySnapshot snap now st

/-- `refreshState` (src/static/main.js:1006-1043): identical cache effect;
its own failures are swallowed (console only) and leave the state as is. -/
def refreshStateFlow (fetch : Except JsStr Snapshot) (now : Int)
    (st : ClientState) : ClientState :=
  match fetch with
  | Except.error _ => st
  | Except.ok snap => applySnapshot snap now st

/-- An operator-visible signal (`Utils.showNotification`). -/
inductive Notif
  | success (msg : JsStr)
  | warning (msg : JsStr)
  | error (msg : JsStr)
deriving DecidableEq

/-- `scheduleEditor.addTime` (src/static/main.js:560-592) from the point
the remote call is issued: `resp` is the mutation outcome (the error message
is the server-supplied one, or the transport error's), `fetch` the outcome of
the follow-up `refreshState` snapshot fetch.  On failure nothing is written
and the message is shown verbatim; on success the success signal is shown and
the state is resynchronized. -/
def addTimeFlow (resp : Except JsStr Unit) (fetch : Except JsStr Snapshot)
    (now : Int) (st : ClientState) : ClientState × List Notif :=
  match resp with
  | Except.error msg => (st, [Notif.error msg])
  | Except.ok _ =>
    (refreshStateFlow fetch now st, [Notif.success (("Time added successfully").data)])

/-- `scheduleEditor.deleteTime` (src/static/main.js:598-621), from the point
the operator has confirmed and the remote call is issued. -/
def deleteTimeFlow (resp : Except JsStr Unit) (fetch : Except JsStr Snapshot)
    (now : Int) (st : ClientState) : ClientState × List Notif :=
  match resp with
  | Except.error msg => (st, [Notif.error msg])
  | Except.ok _ =>
    (refreshStateFlow fetch now st, [Notif.success (("Time deleted successfully").data)])

/-- `customTypes.addType` (src/static/main.js:740-774) from the point the
remote call is issued. -/
def addTypeFlow (resp : Except JsStr Unit) (fetch : Except JsStr Snapshot)
    (now : Int) (st : ClientState) : ClientState × List Notif :=
  match resp with
  | Except.error msg => (st, [Notif.error msg])
  | Except.ok _ =>
    (refreshStateFlow fetch now st, [Notif.success (("Custom type added successfully").data)])

/-! ## Validity predicates used by the hypotheses of the claims -/

/-- A canonical `HH:MM` TimeKey: two digits, a colon, two digits, with
`HH < 24` and `MM < 60` (spec section 3). -/
def validTimeKey (s : JsStr) : Bool :=
  match s with
  | [h1, h2, c, m1, m2] =>
    c = ':' && h1.isDigit && h2.isDigit && m1.isDigit && m2.isDigit &&
    decide ((h1.toNat - 48) * 10 + (h2.toNat - 48) < 24) &&
    decide ((m1.toNat - 48) * 10 + (m2.toNat - 48) < 60)
  | _ => false

/-- A type token that survives the `HH:MM = token` line format: nonempty,
free of `=` and newline, and without surrounding whitespace. -/
def goodToken (s : JsStr) : Prop :=
  s ≠ [] ∧ '=' ∉ s ∧ '\n' ∉ s ∧
  (∀ a, s.head? = some a → a.isWhitespace = false) ∧
  (∀ a, s.getLast? = some a → a.isWhitespace = false)

instance (s : JsStr) : Decidable (goodToken s) := by
  unfold goodToken; infer_instance

/-- The hour-of-day of an instant, as a JS `Date` at a fixed offset reports
it. -/
def hourOfDay (now : Int) : Int := (now % dayMs) / 3600000

/-- The minute-of-hour of an instant. -/
def minuteOfHour (now : Int) : Int := ((now % dayMs) % 3600000) / 60000

/-! ## The properties the claims assert -/

/-- The rollover behaviour of the projector: the occurrence keeps the entry's
time of day with zero seconds, always lands in the half-open day starting at
`now`, is the plain candidate (today's date combined with the entry's
hour/minute) when that candidate is not in the past, and is the candidate
advanced by exactly one calendar day when the candidate is strictly earlier
than `now`; together with the two worked examples of the specification
(now 10:30 / entry 10:00 → tomorrow, 1410 minutes; now 09:45 / entry 10:00 →
today, 15 minutes). -/
def rolloverProjection (now : Int) (h m : Nat) : Prop :=
  (projectEntry now h m).1 % dayMs = ((h : Int) * 60 + (m : Int)) * 60000
  ∧ now ≤ (projectEntry now h m).1
  ∧ (projectEntry now h m).1 < now + dayMs
  ∧ (dayMs * (now / dayMs) + ((h : Int) * 60 + (m : Int)) * 60000 < now →
      (projectEntry now h m).1
        = dayMs * (now / dayMs) + ((h : Int) * 60 + (m : Int)) * 60000 + dayMs)
  ∧ (now ≤ dayMs * (now / dayMs) + ((h : Int) * 60 + (m : Int)) * 60000 →
      (projectEntry now h m).1
        = dayMs * (now / dayMs) + ((h : Int) * 60 + (m : Int)) * 60000)
  ∧ projectEntry 37800000 10 0 = (122400000, 1410)
  ∧ projectEntry 35100000 10 0 = (36000000, 15)

/-- The 60-minute window filter: a parsed line survives exactly when its
rounded countdown is at most 60, every projected item's countdown is at most
60, every surviving line's item appears in the projection, and the concrete
boundary example keeps the 0-minute and 60-minute entries while dropping the
61-minute one. -/
def windowFilter (now : Int) (text line : JsStr) (h m : Int) : Prop :=
  ((lineToItem now line).isSome = true ↔ (projectEntry now h m).2 ≤ 60)
  ∧ (∀ it ∈ updateUpcomingList now text, it.minutesUntil ≤ 60)
  ∧ (∀ line' ∈ keptLines text, ∀ it, lineToItem now line' = some it →
      it ∈ updateUpcomingList now text)
  ∧ updateUpcomingList 36000000 (("10:00 = hour\n11:00 = ad\n11:01 = rules").data)
      = [⟨("10:00").data, some (("hour").data), 0, 36000000⟩,
         ⟨("11:00").data, some (("ad").data), 60, 39600000⟩]

/-- The serialization round trip: parsing the serialized cache recovers
exactly the sorted entries, a permutation of the cache's pairs, and the
identical key-to-token mapping. -/
def roundTripHolds (m : JsMap) : Prop :=
  parseSchedText (serializeCache m)
      = (sortedEntries m).map (fun p => (p.1, some p.2))
  ∧ (parseSchedText (serializeCache m)).Perm (m.map (fun p => (p.1, some p.2)))
  ∧ ∀ t, assocLookup t (parseSchedText (serializeCache m))
      = (assocLookup t m).map some

/-- The rendered schedule list is sorted ascending by the `HH:MM` key under
lexicographic string comparison, and the textual serialization renders that
same list in the same order. -/
def scheduleListSorted (inserts : List (JsStr × JsStr)) : Prop :=
  (sortedEntries (applyInserts inserts)).Pairwise (fun p q => p.1 ≤ q.1)
  ∧ serializeCache (applyInserts inserts)
      = joinLines ((sortedEntries (applyInserts inserts)).map entryLine)

/-- Display-label resolution: a `custom:` token resolves to `Custom: ` plus
the bare name, the four built-in tokens resolve to their fixed labels, an
unrecognized token that names no `Object.prototype` member falls back to
itself, and a token naming an inherited `Object.prototype` member resolves
to that member — never the raw token — though resolution still never
fails. -/
def labelResolution (token name : JsStr) : Prop :=
  resolveTypeLabel (customPre ++ name) = Label.text (("Custom: ").data ++ name)
  ∧ resolveTypeLabel ((":55").data) = Label.text (("Color Warning").data)
  ∧ resolveTypeLabel (("hour").data) = Label.text (("Hour Change").data)
  ∧ resolveTypeLabel (("rules").data) = Label.text (("Rules").data)
  ∧ resolveTypeLabel (("ad").data) = Label.text (("Advertisement").data)
  ∧ resolveTypeLabel token = Label.text token
  ∧ (∀ t ∈ objectProtoKeys,
      resolveTypeLabel t = Label.protoMember t
      ∧ resolveTypeLabel t ≠ Label.text t)

/-- What zeroed seconds really do: when `now` has a nonzero sub-minute part,
the entry at `now`'s own hour and minute rolls to the next day with a rounded
countdown of 1440 (sub-minute part at most 30 s) or 1439 (otherwise), hence
far outside the window; and a projected countdown of 0 happens exactly when
the occurrence lies within half a minute of `now`, which does not require
zero seconds. -/
def secondsRollover (now : Int) : Prop :=
  ((projectEntry now (hourOfDay now) (minuteOfHour now)).2
      = if now % 60000 ≤ 30000 then 1440 else 1439)
  ∧ 60 < (projectEntry now (hourOfDay now) (minuteOfHour now)).2
  ∧ ∀ h m : Int, ((projectEntry now h m).2 = 0 ↔
      -30000 ≤ (projectEntry now h m).1 - now
        ∧ (projectEntry now h m).1 - now < 30000)

/-- What the projector actually guarantees on arbitrary text: lines whose
time part fails to parse are skipped without failing, every projected item
stems from a kept line and respects the window, and rendering the projection
succeeds exactly when every projected item carries a type token (a line with
a parsable in-window time but no `=` yields an item without one, and
rendering it throws). -/
def projectorSafety (now : Int) (text : JsStr) : Prop :=
  (∀ line, parseHM (parseLineTimeType line).1 = none → lineToItem now line = none)
  ∧ (∀ it ∈ updateUpcomingList now text,
      ∃ line ∈ keptLines text, lineToItem now line = some it ∧ it.minutesUntil ≤ 60)
  ∧ ((∃ ls, renderItems (updateUpcomingList now text) = Except.ok ls) ↔
      ∀ it ∈ updateUpcomingList now text, it.type.isSome = true)

/-! ## Helper lemmas: characters, trimming, splitting, joining -/

theorem isWhitespace_false_of_isDigit {c : Char} (h : c.isDigit = true) :
    c.isWhitespace = false := by
  simp only [Char.isDigit, decide_eq_true_eq, Bool.and_eq_true] at h
  simp only [Char.isWhitespace, Bool.or_eq_false_iff, decide_eq_false_iff_not]
  refine ⟨⟨⟨?_, ?_⟩, ?_⟩, ?_⟩ <;> rintro rfl <;> revert h <;> decide

theorem ne_eq_char_of_isDigit {c : Char} (h : c.isDigit = true) : c ≠ '=' := by
  rintro rfl; revert h; decide

theorem ne_newline_of_isDigit {c : Char} (h : c.isDigit = true) : c ≠ '\n' := by
  rintro rfl; revert h; decide

theorem dropWhile_eq_self_of_head {p : Char → Bool} {s : JsStr}
    (h : ∀ a, s.head? = some a → p a = false) : s.dropWhile p = s := by
  cases s with
  | nil => rfl
  | cons x xs => rw [List.dropWhile_cons, if_neg (by simp [h x rfl])]

theorem jsTrim_eq_self_of {s : JsStr}
    (h1 : ∀ a, s.head? = some a → a.isWhitespace = false)
    (h2 : ∀ a, s.getLast? = some a → a.isWhitespace = false) :
    jsTrim s = s := by
  unfold jsTrim
  rw [dropWhile_eq_self_of_head h1,
      dropWhile_eq_self_of_head (by simpa [List.head?_reverse] using h2),
      List.reverse_reverse]

theorem splitOnChar_nil (c : Char) : splitOnChar c [] = [[]] := rfl

theorem splitOnChar_cons (c x : Char) (xs : JsStr) :
    splitOnChar c (x :: xs) =
      if x = c then [] :: splitOnChar c xs
      else (x :: (splitOnChar c xs).headD []) :: (splitOnChar c xs).tail := rfl

theorem splitOnChar_ne_nil (c : Char) (s : JsStr) : splitOnChar c s ≠ [] := by
  cases s with
  | nil => simp [splitOnChar_nil]
  | cons x xs =>
    rw [splitOnChar_cons]
    by_cases hx : x = c <;> simp [hx]

theorem splitOnChar_of_not_mem {c : Char} {s : JsStr} (h : c ∉ s) :
    splitOnChar c s = [s] := by
  induction s with
  | nil => rfl
  | cons x xs ih =>
    have hx : ¬ x = c := fun he => h (he ▸ List.mem_cons_self x xs)
    have hxs : c ∉ xs := fun hm => h (List.mem_cons_of_mem x hm)
    rw [splitOnChar_cons, ih hxs]
    simp [hx]

theorem splitOnChar_append {c : Char} {a : JsStr} (b : JsStr) (h : c ∉ a) :
    splitOnChar c (a ++ c :: b) = a :: splitOnChar c b := by
  induction a with
  | nil => simp [splitOnChar_cons]
  | cons x xs ih =>
    have hx : ¬ x = c := fun he => h (he ▸ List.mem_cons_self x xs)
    have hxs : c ∉ xs := fun hm => h (List.mem_cons_of_mem x hm)
    simp only [List.cons_append]
    rw [splitOnChar_cons, ih hxs]
    simp [hx]

theorem splitOnChar_join {ls : List JsStr} (hne : ls ≠ [])
    (h : ∀ l ∈ ls, '\n' ∉ l) :
    splitOnChar '\n' (joinLines ls) = ls := by
  induction ls with
  | nil => exact absurd rfl hne
  | cons l rest ih =>
    cases rest with
    | nil => exact splitOnChar_of_not_mem (h l (List.mem_cons_self l []))
    | cons l' rest' =>
      show splitOnChar '\n' (l ++ '\n' :: joinLines (l' :: rest')) = _
      rw [splitOnChar_append _ (h l (List.mem_cons_self _ _)),
          ih (by simp) (fun x hx => h x (List.mem_cons_of_mem l hx))]

/-- A string whose first and last characters are not whitespace, with a single
trailing space appended, trims back to itself without the space. -/
theorem jsTrim_append_space {t : JsStr} (hne : t ≠ [])
    (h1 : ∀ a, t.head? = some a → a.isWhitespace = false)
    (h2 : ∀ a, t.getLast? = some a → a.isWhitespace = false) :
    jsTrim (t ++ [' ']) = t := by
  unfold jsTrim
  have hd : (t ++ [' ']).dropWhile Char.isWhitespace = t ++ [' '] := by
    refine dropWhile_eq_self_of_head (fun a ha => ?_)
    rcases t with _ | ⟨x, xs⟩
    · exact absurd rfl hne
    · exact h1 a (by simpa using ha)
  rw [hd, List.reverse_append]
  show ((' ' :: t.reverse).dropWhile Char.isWhitespace).reverse = t
  rw [List.dropWhile_cons, if_pos (by decide),
      dropWhile_eq_self_of_head (by simpa [List.head?_reverse] using h2),
      List.reverse_reverse]

/-- A string whose first and last characters are not whitespace, with a single
leading space prepended, trims back to itself without the space. -/
theorem jsTrim_cons_space {t : JsStr}
    (h1 : ∀ a, t.head? = some a → a.isWhitespace = false)
    (h2 : ∀ a, t.getLast? = some a → a.isWhitespace = false) :
    jsTrim (' ' :: t) = t := by
  unfold jsTrim
  rw [List.dropWhile_cons, if_pos (by decide),
      dropWhile_eq_self_of_head h1,
      dropWhile_eq_self_of_head (by simpa [List.head?_reverse] using h2),
      List.reverse_reverse]

/-! ## Helper lemmas: valid time keys -/

theorem validTimeKey_shape {s : JsStr} (h : validTimeKey s = true) :
    ∃ h1 h2 m1 m2 : Char, s = [h1, h2, ':', m1, m2] ∧
      h1.isDigit = true ∧ h2.isDigit = true ∧
      m1.isDigit = true ∧ m2.isDigit = true := by
  rcases s with _ | ⟨a, _ | ⟨b, _ | ⟨c, _ | ⟨d, _ | ⟨e, _ | ⟨f, rest⟩⟩⟩⟩⟩⟩ <;>
    simp only [validTimeKey, Bool.and_eq_true, decide_eq_true_eq] at h <;>
    try exact (Bool.false_ne_true h).elim
  obtain ⟨⟨⟨⟨⟨⟨hc, ha⟩, hb⟩, hd⟩, he⟩, -⟩, -⟩ := h
  exact ⟨a, b, d, e, by rw [hc], ha, hb, hd, he⟩

theorem validTimeKey_head {s : JsStr} (h : validTimeKey s = true) :
    ∀ a, s.head? = some a → a.isWhitespace = false := by
  obtain ⟨h1, h2, m1, m2, rfl, hd1, -, -, -⟩ := validTimeKey_shape h
  intro a ha
  simp only [List.head?_cons, Option.some.injEq] at ha
  exact ha ▸ isWhitespace_false_of_isDigit hd1

theorem validTimeKey_getLast {s : JsStr} (h : validTimeKey s = true) :
    ∀ a, s.getLast? = some a → a.isWhitespace = false := by
  obtain ⟨h1, h2, m1, m2, rfl, -, -, -, hd4⟩ := validTimeKey_shape h
  intro a ha
  simp only [List.getLast?] at ha
  have : a = m2 := by simpa [List.getLast] using ha.symm
  exact this ▸ isWhitespace_false_of_isDigit hd4

theorem validTimeKey_not_mem_eq {s : JsStr} (h : validTimeKey s = true) :
    '=' ∉ s := by
  obtain ⟨h1, h2, m1, m2, rfl, hd1, hd2, hd3, hd4⟩ := validTimeKey_shape h
  intro hm
  simp only [List.mem_cons, List.not_mem_nil, or_false] at hm
  rcases hm with h' | h' | h' | h' | h' <;>
    first
    | exact ne_eq_char_of_isDigit (by assumption) h'.symm
    | exact absurd h'.symm (by decide)

theorem validTimeKey_not_mem_newline {s : JsStr} (h : validTimeKey s = true) :
    '\n' ∉ s := by
  obtain ⟨h1, h2, m1, m2, rfl, hd1, hd2, hd3, hd4⟩ := validTimeKey_shape h
  intro hm
  simp only [List.mem_cons, List.not_mem_nil, or_false] at hm
  rcases hm with h' | h' | h' | h' | h' <;>
    first
    | exact ne_newline_of_isDigit (by assumption) h'.symm
    | exact absurd h'.symm (by decide)

theorem validTimeKey_ne_nil {s : JsStr} (h : validTimeKey s = true) : s ≠ [] := by
  obtain ⟨h1, h2, m1, m2, rfl, -⟩ := validTimeKey_shape h
  simp

theorem validTimeKey_length {s : JsStr} (h : validTimeKey s = true) :
    s.length = 5 := by
  obtain ⟨h1, h2, m1, m2, rfl, -⟩ := validTimeKey_shape h
  rfl

/-! ## Helper lemmas: the JS `Map` model -/

theorem mem_mapSet {m : JsMap} {k v : JsStr} {q : JsStr × JsStr} :
    q ∈ mapSet m k v → q = (k, v) ∨ q ∈ m := by
  induction m with
  | nil => intro h; simpa [mapSet] using h
  | cons p rest ih =>
    intro h
    unfold mapSet at h
    by_cases hp : p.1 = k
    · rw [if_pos hp, List.mem_cons] at h
      rcases h with h | h
      · exact Or.inl h
      · exact Or.inr (List.mem_cons_of_mem p h)
    · rw [if_neg hp, List.mem_cons] at h
      rcases h with h | h
      · exact Or.inr (h ▸ List.mem_cons_self p rest)
      · rcases ih h with h' | h'
        · exact Or.inl h'
        · exact Or.inr (List.mem_cons_of_mem p h')

theorem keys_pairwise_mapSet {m : JsMap} (k v : JsStr) :
    m.Pairwise keyNe → (mapSet m k v).Pairwise keyNe := by
  induction m with
  | nil => intro _; simp [mapSet, keyNe]
  | cons p rest ih =>
    intro h
    rw [List.pairwise_cons] at h
    unfold mapSet
    by_cases hp : p.1 = k
    · rw [if_pos hp]
      rw [List.pairwise_cons]
      exact ⟨fun q hq => hp ▸ h.1 q hq, h.2⟩
    · rw [if_neg hp]
      rw [List.pairwise_cons]
      refine ⟨fun q hq => ?_, ih h.2⟩
      rcases mem_mapSet hq with rfl | hq'
      · exact hp
      · exact h.1 q hq'

theorem keys_pairwise_applyInserts (l : List (JsStr × JsStr)) :
    (applyInserts l).Pairwise keyNe := by
  suffices h : ∀ m : JsMap, m.Pairwise keyNe →
      (l.foldl (fun m p => mapSet m p.1 p.2) m).Pairwise keyNe by
    exact h [] (by simp)
  induction l with
  | nil => intro m hm; simpa using hm
  | cons p rest ih =>
    intro m hm
    exact ih (mapSet m p.1 p.2) (keys_pairwise_mapSet p.1 p.2 hm)

theorem filter_mapSet {m : JsMap} (k v : JsStr) :
    m.Pairwise keyNe →
    (mapSet m k v).filter (fun p => decide (p.1 = k)) = [(k, v)] := by
  induction m with
  | nil => intro _; simp [mapSet]
  | cons p rest ih =>
    intro nd
    rw [List.pairwise_cons] at nd
    unfold mapSet
    by_cases hp : p.1 = k
    · rw [if_pos hp]
      have hrest : rest.filter (fun p => decide (p.1 = k)) = [] := by
        rw [List.filter_eq_nil_iff]
        intro q hq
        simpa using Ne.symm (hp ▸ nd.1 q hq)
      simp [List.filter, hrest]
    · rw [if_neg hp]
      rw [List.filter_cons_of_neg (by simpa using hp)]
      exact ih nd.2

theorem mem_applyInserts {l : List (JsStr × JsStr)} {q : JsStr × JsStr}
    (h : q ∈ applyInserts l) : q ∈ l := by
  suffices hgen : ∀ m : JsMap, q ∈ l.foldl (fun m p => mapSet m p.1 p.2) m →
      q ∈ m ∨ q ∈ l by
    rcases hgen [] h with h' | h'
    · exact absurd h' (List.not_mem_nil q)
    · exact h'
  clear h
  induction l with
  | nil => intro m hm; exact Or.inl hm
  | cons p rest ih =>
    intro m hm
    rcases ih (mapSet m p.1 p.2) hm with h' | h'
    · rcases mem_mapSet h' with h'' | h''
      · exact Or.inr (h'' ▸ List.mem_cons_self p rest)
      · exact Or.inl h''
    · exact Or.inr (List.mem_cons_of_mem p h')

theorem assocLookup_mapSet_self (m : JsMap) (k v : JsStr) :
    assocLookup k (mapSet m k v) = some v := by
  induction m with
  | nil => simp [mapSet, assocLookup]
  | cons p rest ih =>
    unfold mapSet
    by_cases hp : p.1 = k
    · rw [if_pos hp]; simp [assocLookup]
    · rw [if_neg hp]
      unfold assocLookup
      rw [if_neg hp]
      exact ih

/-! ## Helper lemmas: association lookup under permutation -/

theorem assocLookup_some_iff {β : Type} {k : JsStr} {v : β}
    {l : List (JsStr × β)} :
    l.Pairwise keyNe → (assocLookup k l = some v ↔ (k, v) ∈ l) := by
  induction l with
  | nil => intro _; simp [assocLookup]
  | cons p rest ih =>
    rcases p with ⟨p1, p2⟩
    intro nd
    rw [List.pairwise_cons] at nd
    unfold assocLookup
    by_cases hp : p1 = k
    · subst hp
      rw [if_pos rfl]
      have hmem : (p1, v) ∉ rest := fun hm => (nd.1 _ hm) rfl
      simp only [List.mem_cons]
      constructor
      · intro h
        injection h with h
        exact Or.inl (by rw [h])
      · rintro (h | h)
        · injection h with h1 h2
          rw [h2]
        · exact absurd h hmem
    · rw [if_neg hp, ih nd.2]
      simp only [List.mem_cons]
      constructor
      · exact Or.inr
      · rintro (h | h)
        · injection h with h1 h2
          exact absurd h1.symm hp
        · exact h

theorem assocLookup_eq_of_perm {β : Type} {l₁ l₂ : List (JsStr × β)}
    (hp : l₁.Perm l₂) (nd : l₂.Pairwise keyNe) (k : JsStr) :
    assocLookup k l₁ = assocLookup k l₂ := by
  have nd₁ : l₁.Pairwise keyNe :=
    (hp.pairwise_iff (fun h => Ne.symm h)).mpr nd
  cases h₁ : assocLookup k l₁ with
  | some v =>
    have hm : (k, v) ∈ l₂ := hp.mem_iff.mp ((assocLookup_some_iff nd₁).mp h₁)
    exact ((assocLookup_some_iff nd).mpr hm).symm
  | none =>
    cases h₂ : assocLookup k l₂ with
    | some v =>
      have hm : (k, v) ∈ l₁ := hp.mem_iff.mpr ((assocLookup_some_iff nd).mp h₂)
      rw [(assocLookup_some_iff nd₁).mpr hm] at h₁
      cases h₁
    | none => rfl

theorem assocLookup_map_some (k : JsStr) (l : List (JsStr × JsStr)) :
    assocLookup k (l.map (fun p => (p.1, some p.2)))
      = (assocLookup k l).map some := by
  induction l with
  | nil => simp [assocLookup]
  | cons p rest ih =>
    rcases p with ⟨p1, p2⟩
    by_cases hp : p1 = k <;> simp [assocLookup, hp, ih]

/-! ## Helper lemmas: lexicographic comparison of fixed-width keys -/

theorem lt_append_iff_of_length {t₁ t₂ : JsStr} (c₁ c₂ : JsStr)
    (hlen : t₁.length = t₂.length) (hne : t₁ ≠ t₂) :
    (t₁ ++ c₁ < t₂ ++ c₂) ↔ t₁ < t₂ := by
  show List.Lex (· < ·) (t₁ ++ c₁) (t₂ ++ c₂) ↔ List.Lex (· < ·) t₁ t₂
  induction t₁ generalizing t₂ with
  | nil =>
    cases t₂ with
    | nil => exact absurd rfl hne
    | cons b bs => simp at hlen
  | cons a as ih =>
    cases t₂ with
    | nil => simp at hlen
    | cons b bs =>
      simp only [List.cons_append]
      rcases lt_trichotomy a b with hab | hab | hab
      · exact iff_of_true (List.Lex.rel hab) (List.Lex.rel hab)
      · subst hab
        have hne' : as ≠ bs := fun h => hne (by rw [h])
        have hlen' : as.length = bs.length := by simpa using hlen
        rw [List.Lex.cons_iff, List.Lex.cons_iff]
        exact ih hlen' hne'
      · refine iff_of_false (fun h => ?_) (fun h => ?_)
        · cases h with
          | rel h' => exact lt_asymm hab h'
          | cons h' => exact lt_irrefl _ hab
        · cases h with
          | rel h' => exact lt_asymm hab h'
          | cons h' => exact lt_irrefl _ hab

theorem timeLe_of_entryLe {p q : JsStr × JsStr}
    (h : entryLe p q) (hlen : p.1.length = q.1.length) (hne : p.1 ≠ q.1) :
    p.1 ≤ q.1 := by
  refine not_lt.mp (fun hlt => ?_)
  have hkey : entryKey q < entryKey p :=
    (lt_append_iff_of_length _ _ hlen.symm (Ne.symm hne)).mpr hlt
  exact absurd hkey (not_lt.mpr h)

/-! ## Helper lemmas: the projector -/

theorem minutesUntil_le_of_lineToItem {now : Int} {line : JsStr} {it : RawItem}
    (h : lineToItem now line = some it) : it.minutesUntil ≤ 60 := by
  cases hp : parseHM (parseLineTimeType line).1 with
  | none => simp only [lineToItem, hp] at h; cases h
  | some hm =>
    simp only [lineToItem, hp] at h
    by_cases hle : (projectEntry now hm.1 hm.2).2 ≤ 60
    · rw [if_pos hle] at h
      injection h with h
      rw [← h]
      exact hle
    · rw [if_neg hle] at h; cases h

theorem mem_updateUpcomingList {now : Int} {text : JsStr} {it : RawItem} :
    it ∈ updateUpcomingList now text ↔
      ∃ line ∈ keptLines text, lineToItem now line = some it := by
  unfold updateUpcomingList
  rw [(List.perm_insertionSort occLe _).mem_iff]
  exact List.mem_filterMap

theorem renderItems_ok_iff (items : List RawItem) :
    (∃ ls, renderItems items = Except.ok ls) ↔
      ∀ it ∈ items, it.type.isSome = true := by
  induction items with
  | nil => exact ⟨fun _ => by simp, fun _ => ⟨[], rfl⟩⟩
  | cons it rest ih =>
    constructor
    · rintro ⟨ls, hls⟩ x hx
      unfold renderItems at hls
      cases hty : it.type with
      | none => rw [hty] at hls; cases hls
      | some t =>
        rw [hty] at hls
        cases hr : renderItems rest with
        | error e => rw [hr] at hls; cases hls
        | ok ls' =>
          rcases List.mem_cons.mp hx with rfl | hx'
          · rw [hty]; rfl
          · exact ih.mp ⟨ls', hr⟩ x hx'
    · intro h
      unfold renderItems
      cases hty : it.type with
      | none =>
        have hh := h it (List.mem_cons_self _ _)
        rw [hty] at hh
        cases hh
      | some t =>
        obtain ⟨ls', hr⟩ := ih.mpr (fun x hx => h x (List.mem_cons_of_mem _ hx))
        rw [hr]
        exact ⟨_, rfl⟩

/-! ## Helper lemmas: the serialization round trip -/

theorem getLast?_mem {α : Type} {l : List α} {a : α}
    (h : l.getLast? = some a) : a ∈ l := by
  induction l with
  | nil => cases h
  | cons x xs ih =>
    cases xs with
    | nil =>
      have hx : x = a := by simpa using h
      exact hx ▸ List.mem_cons_self x []
    | cons y ys =>
      rw [List.getLast?_cons_cons] at h
      exact List.mem_cons_of_mem x (ih h)

theorem entryLine_ne_nil {p : JsStr × JsStr}
    (hk : validTimeKey p.1 = true) : entryLine p ≠ [] := by
  intro h
  exact validTimeKey_ne_nil hk (List.append_eq_nil.mp h).1

theorem head_not_ws_entryLine {p : JsStr × JsStr}
    (hk : validTimeKey p.1 = true) :
    ∀ a, (entryLine p).head? = some a → a.isWhitespace = false := by
  obtain ⟨h1, h2, m1, m2, hshape, hd1, -, -, -⟩ := validTimeKey_shape hk
  intro a ha
  unfold entryLine at ha
  rw [hshape] at ha
  simp only [List.cons_append, List.head?_cons, Option.some.injEq] at ha
  exact ha ▸ isWhitespace_false_of_isDigit hd1

theorem last_not_ws_entryLine {p : JsStr × JsStr} (ht : goodToken p.2) :
    ∀ a, (entryLine p).getLast? = some a → a.isWhitespace = false := by
  obtain ⟨hne, -, -, -, hLast⟩ := ht
  intro a ha
  unfold entryLine at ha
  rw [List.getLast?_append] at ha
  have hx : (' ' :: '=' :: ' ' :: p.2).getLast? = p.2.getLast? := by
    rcases hp2 : p.2 with _ | ⟨y, ys⟩
    · exact absurd hp2 hne
    · rw [List.getLast?_cons_cons, List.getLast?_cons_cons,
          List.getLast?_cons_cons]
  rw [hx] at ha
  rcases hz : p.2.getLast? with _ | z
  · exact absurd (List.getLast?_eq_none_iff.mp hz) hne
  · rw [hz] at ha
    have haz : a = z := by
      have : (some z).or p.1.getLast? = some z := rfl
      rw [this] at ha
      injection ha with ha
      exact ha.symm
    exact haz ▸ hLast z hz

theorem newline_not_mem_entryLine {p : JsStr × JsStr}
    (hk : validTimeKey p.1 = true) (ht : goodToken p.2) :
    '\n' ∉ entryLine p := by
  intro hm
  unfold entryLine at hm
  rcases List.mem_append.mp hm with hm | hm
  · exact validTimeKey_not_mem_newline hk hm
  · simp only [List.mem_cons] at hm
    rcases hm with h | h | h | h
    · exact absurd h (by decide)
    · exact absurd h (by decide)
    · exact absurd h (by decide)
    · exact absurd h ht.2.2.1

theorem jsTrim_entryLine {p : JsStr × JsStr}
    (hk : validTimeKey p.1 = true) (ht : goodToken p.2) :
    jsTrim (entryLine p) = entryLine p :=
  jsTrim_eq_self_of (head_not_ws_entryLine hk) (last_not_ws_entryLine ht)

theorem head_joinLines {l : JsStr} {ls : List JsStr} (hne : l ≠ []) :
    (joinLines (l :: ls)).head? = l.head? := by
  cases ls with
  | nil => rfl
  | cons l' rest =>
    show (l ++ '\n' :: joinLines (l' :: rest)).head? = l.head?
    rw [List.head?_append]
    rcases hl : l.head? with _ | a
    · exact absurd (by simpa using hl) hne
    · rfl

theorem getLast_joinLines {ls : List JsStr} {lst : JsStr} :
    ls.getLast? = some lst → (∀ l ∈ ls, l ≠ []) →
    (joinLines ls).getLast? = lst.getLast? := by
  induction ls with
  | nil => intro h _; cases h
  | cons l rest ih =>
    intro h hnil
    cases rest with
    | nil =>
      have hl : l = lst := by simpa using h
      show l.getLast? = lst.getLast?
      rw [hl]
    | cons l' rest' =>
      rw [List.getLast?_cons_cons] at h
      have hj := ih h (fun x hx => hnil x (List.mem_cons_of_mem l hx))
      show (l ++ '\n' :: joinLines (l' :: rest')).getLast? = lst.getLast?
      rw [List.getLast?_append]
      have hlst_ne : lst ≠ [] :=
        hnil lst (List.mem_cons_of_mem l (getLast?_mem h))
      rcases hz : lst.getLast? with _ | z
      · exact absurd (List.getLast?_eq_none_iff.mp hz) hlst_ne
      · have hcons : ('\n' :: joinLines (l' :: rest')).getLast? = some z := by
          cases hjj : joinLines (l' :: rest') with
          | nil =>
            rw [hjj] at hj
            rw [hz] at hj
            cases hj
          | cons c cs =>
            rw [hjj, hz] at hj
            rw [List.getLast?_cons_cons]
            exact hj
        rw [hcons]
        rfl

theorem parseLineTimeType_entryLine {p : JsStr × JsStr}
    (hk : validTimeKey p.1 = true) (ht : goodToken p.2) :
    parseLineTimeType (entryLine p) = (p.1, some p.2) := by
  obtain ⟨hne, hEq, hNl, hHead, hLast⟩ := ht
  have h1 : '=' ∉ p.1 ++ [' '] := by
    intro hm
    rcases List.mem_append.mp hm with hm | hm
    · exact validTimeKey_not_mem_eq hk hm
    · exact absurd (List.mem_singleton.mp hm) (by decide)
  have h2 : '=' ∉ ' ' :: p.2 := by
    intro hm
    simp only [List.mem_cons] at hm
    rcases hm with h | h
    · exact absurd h (by decide)
    · exact hEq h
  have hshape : entryLine p = (p.1 ++ [' ']) ++ '=' :: (' ' :: p.2) := by
    unfold entryLine
    simp
  unfold parseLineTimeType
  rw [hshape, splitOnChar_append _ h1, splitOnChar_of_not_mem h2]
  simp only [List.map_cons, List.map_nil]
  rw [jsTrim_append_space (validTimeKey_ne_nil hk) (validTimeKey_head hk)
        (validTimeKey_getLast hk),
      jsTrim_cons_space hHead hLast]
  rfl

/-- The serialization of any cache of valid keys and well-formed tokens
parses back, line by line and in sorted order, to the very pairs it was
rendered from. -/
theorem parseSchedText_serializeCache (m : JsMap)
    (hk : ∀ p ∈ m, validTimeKey p.1 = true)
    (ht : ∀ p ∈ m, goodToken p.2) :
    parseSchedText (serializeCache m)
      = (sortedEntries m).map (fun p => (p.1, some p.2)) := by
  have hperm := List.perm_insertionSort entryLe m
  have hk' : ∀ p ∈ sortedEntries m, validTimeKey p.1 = true :=
    fun p hp => hk p (hperm.mem_iff.mp hp)
  have ht' : ∀ p ∈ sortedEntries m, goodToken p.2 :=
    fun p hp => ht p (hperm.mem_iff.mp hp)
  unfold parseSchedText serializeCache keptLines
  rcases hs : sortedEntries m with _ | ⟨p0, rest⟩
  · rfl
  · rw [hs] at hk' ht'
    have hnil : ∀ l ∈ (p0 :: rest).map entryLine, l ≠ [] := by
      intro l hl
      obtain ⟨p, hp, rfl⟩ := List.mem_map.mp hl
      exact entryLine_ne_nil (hk' p hp)
    have hnlines : ∀ l ∈ (p0 :: rest).map entryLine, '\n' ∉ l := by
      intro l hl
      obtain ⟨p, hp, rfl⟩ := List.mem_map.mp hl
      exact newline_not_mem_entryLine (hk' p hp) (ht' p hp)
    have htrim : jsTrim (joinLines ((p0 :: rest).map entryLine))
        = joinLines ((p0 :: rest).map entryLine) := by
      apply jsTrim_eq_self_of
      · rw [List.map_cons, head_joinLines (entryLine_ne_nil (hk' p0 (List.mem_cons_self _ _)))]
        exact head_not_ws_entryLine (hk' p0 (List.mem_cons_self _ _))
      · rcases hlast : (p0 :: rest).getLast? with _ | plast
        · exact absurd (List.getLast?_eq_none_iff.mp hlast) (by simp)
        · have hlm : ((p0 :: rest).map entryLine).getLast? = some (entryLine plast) := by
            rw [List.getLast?_map, hlast]
            rfl
          rw [getLast_joinLines hlm hnil]
          exact last_not_ws_entryLine (ht' plast (getLast?_mem hlast))
    rw [htrim, splitOnChar_join (by simp) hnlines]
    have hfilter : ((p0 :: rest).map entryLine).filter (fun l => !(jsTrim l).isEmpty)
        = (p0 :: rest).map entryLine := by
      rw [List.filter_eq_self]
      intro l hl
      obtain ⟨p, hp, rfl⟩ := List.mem_map.mp hl
      rw [jsTrim_entryLine (hk' p hp) (ht' p hp)]
      simpa using entryLine_ne_nil (hk' p hp)
    rw [hfilter, List.map_map]
    refine List.map_congr_left (fun p hp => ?_)
    exact parseLineTimeType_entryLine (hk' p hp) (ht' p hp)

/-! ## The claims -/

/-- Claim C1: in the upcoming-announcements projection, for every schedule
entry the candidate occurrence is built from today's date and the entry's
HH:MM with zero seconds, and if it is strictly earlier than `now` it is
advanced by exactly one calendar day; with now = 10:30 an entry at 10:00
projects to tomorrow 10:00 with minutesUntil = 1410, and with now = 09:45 an
entry at 10:00 projects to today with minutesUntil = 15. -/
theorem upcoming_rollover_correct (now : Int) (h m : Nat)
    (hh : h < 24) (hm : m < 60) : rolloverProjection now h m := by
  have hT0 : (0 : Int) ≤ ((h : Int) * 60 + (m : Int)) * 60000 := by positivity
  have hT1 : ((h : Int) * 60 + (m : Int)) * 60000 < 86400000 := by
    have hh' : (h : Int) ≤ 23 := by exact_mod_cast Nat.le_of_lt_succ hh
    have hm' : (m : Int) ≤ 59 := by exact_mod_cast Nat.le_of_lt_succ hm
    nlinarith
  unfold rolloverProjection projectEntry dayMs
  refine ⟨?_, ?_, ?_, ?_, ?_, by decide, by decide⟩ <;>
    · simp only []
      split_ifs <;> omega

theorem upcoming_rollover_correct_witness :
    (10 : Nat) < 24 ∧ (0 : Nat) < 60 ∧ rolloverProjection 37800000 10 0 :=
  ⟨by decide, by decide,
    upcoming_rollover_correct 37800000 10 0 (by decide) (by decide)⟩

/-- Claim C2: the projection retains exactly the entries whose rounded
minutesUntil is at most the fixed 60-minute window; an entry exactly 60
minutes out is included, one 61 minutes out is excluded, and one whose
occurrence equals `now` (minutesUntil = 0) is included. -/
theorem window_filter_correct (now : Int) (text line : JsStr) (h m : Int)
    (hp : parseHM (parseLineTimeType line).1 = some (h, m)) :
    windowFilter now text line h m := by
  refine ⟨?_, ?_, ?_, by decide⟩
  · simp only [lineToItem, hp]
    by_cases hle : (projectEntry now h m).2 ≤ 60
    · simp [hle]
    · simp [hle]
  · intro it hit
    obtain ⟨line', -, hli⟩ := mem_updateUpcomingList.mp hit
    exact minutesUntil_le_of_lineToItem hli
  · intro line' hl it hli
    exact mem_updateUpcomingList.mpr ⟨line', hl, hli⟩

theorem window_filter_correct_witness :
    parseHM (parseLineTimeType (("11:00 = ad").data)).1 = some (11, 0)
    ∧ windowFilter 36000000 [] (("11:00 = ad").data) 11 0 :=
  ⟨by decide, window_filter_correct 36000000 [] (("11:00 = ad").data) 11 0 (by decide)⟩

/-- Claim C3, counterexample: a legitimate custom-type token containing `=`
breaks the round trip — serializing `10:00 ↦ custom:a=b` and parsing it back
with the projector's split-on-`=` yields `custom:a`, a different mapping. -/
theorem schedule_roundtrip_cex :
    parseSchedText (serializeCache [((("10:00").data), (("custom:a=b").data))])
      = [((("10:00").data), some (("custom:a").data))]
    ∧ (("custom:a").data) ≠ (("custom:a=b").data) := by
  exact ⟨by decide, by decide⟩

/-- Claim C3, amended: for every cache of valid `HH:MM` keys and tokens that
are nonempty, free of `=` and newline, and carry no surrounding whitespace,
serializing and parsing back reproduces the identical mapping. -/
theorem schedule_roundtrip_amended (m : JsMap)
    (hnd : m.Pairwise keyNe)
    (hk : ∀ p ∈ m, validTimeKey p.1 = true)
    (ht : ∀ p ∈ m, goodToken p.2) :
    roundTripHolds m := by
  have hmain := parseSchedText_serializeCache m hk ht
  have hperm := List.perm_insertionSort entryLe m
  refine ⟨hmain, ?_, ?_⟩
  · rw [hmain]
    exact hperm.map _
  · intro t
    rw [hmain, assocLookup_map_some]
    have hl : assocLookup t (sortedEntries m) = assocLookup t m :=
      assocLookup_eq_of_perm hperm hnd t
    rw [hl]

theorem schedule_roundtrip_amended_witness :
    ([((("10:00").data), (("hour").data)),
      ((("09:30").data), (("custom:vip").data))] : JsMap).Pairwise keyNe
    ∧ (∀ p ∈ ([((("10:00").data), (("hour").data)),
        ((("09:30").data), (("custom:vip").data))] : JsMap), validTimeKey p.1 = true)
    ∧ (∀ p ∈ ([((("10:00").data), (("hour").data)),
        ((("09:30").data), (("custom:vip").data))] : JsMap), goodToken p.2)
    ∧ roundTripHolds [((("10:00").data), (("hour").data)),
        ((("09:30").data), (("custom:vip").data))] :=
  ⟨by decide, by decide, by decide,
    schedule_roundtrip_amended _ (by decide) (by decide) (by decide)⟩

/-- Claim C4: for every sequence of `set()` insertions with canonical `HH:MM`
keys, in any order, the rendered schedule list and its textual serialization
are sorted ascending by the key under lexicographic string comparison. -/
theorem schedule_list_sorted (inserts : List (JsStr × JsStr))
    (hv : ∀ p ∈ inserts, validTimeKey p.1 = true) :
    scheduleListSorted inserts := by
  refine ⟨?_, rfl⟩
  have hperm := List.perm_insertionSort entryLe (applyInserts inserts)
  have hsorted : (sortedEntries (applyInserts inserts)).Pairwise entryLe :=
    List.sorted_insertionSort entryLe (applyInserts inserts)
  have hkeys : (applyInserts inserts).Pairwise keyNe :=
    keys_pairwise_applyInserts inserts
  have hkeys' : (sortedEntries (applyInserts inserts)).Pairwise keyNe :=
    (hperm.pairwise_iff (fun hx => Ne.symm hx)).mpr hkeys
  refine List.Pairwise.imp_of_mem ?_ (hsorted.and hkeys')
  intro a b ha hb hr
  have hva := hv a (mem_applyInserts (hperm.mem_iff.mp ha))
  have hvb := hv b (mem_applyInserts (hperm.mem_iff.mp hb))
  exact timeLe_of_entryLe hr.1
    (by rw [validTimeKey_length hva, validTimeKey_length hvb]) hr.2

theorem schedule_list_sorted_witness :
    (∀ p ∈ ([((("10:00").data), (("hour").data)),
        ((("09:30").data), (("ad").data))] : List (JsStr × JsStr)),
      validTimeKey p.1 = true)
    ∧ scheduleListSorted [((("10:00").data), (("hour").data)),
        ((("09:30").data), (("ad").data))] :=
  ⟨by decide, schedule_list_sorted _ (by decide)⟩

/-- Claim C5: for every prior insertion history and every key `t`,
`set(t, A)` followed by `set(t, B)` leaves exactly one entry for `t`, whose
type is `B` — duplicate keys overwrite, last write wins. -/
theorem schedule_set_overwrite (prior : List (JsStr × JsStr)) (t A B : JsStr) :
    (mapSet (mapSet (applyInserts prior) t A) t B).filter
        (fun p => decide (p.1 = t)) = [(t, B)]
    ∧ assocLookup t (mapSet (mapSet (applyInserts prior) t A) t B) = some B := by
  constructor
  · exact filter_mapSet t B
      (keys_pairwise_mapSet t A (keys_pairwise_applyInserts prior))
  · exact assocLookup_mapSet_self _ t B

/-- Claim C6, counterexample: resolving `custom:vip` yields the label
`Custom: vip`, not the bare name `vip` the claim asserts; and the
unrecognized token `toString` does not fall back to the raw token string —
the object lookup finds the member inherited from `Object.prototype`. -/
theorem resolve_label_cex :
    resolveTypeLabel (("custom:vip").data) = Label.text (("Custom: vip").data)
    ∧ ("Custom: vip").data ≠ ("vip").data
    ∧ resolveTypeLabel (("toString").data) ≠ Label.text (("toString").data) := by
  exact ⟨by decide, by decide, by decide⟩

/-- Claim C6, amended: a `custom:name` token resolves to `Custom: ` followed
by the bare name, the four built-in tokens resolve to their fixed labels, an
unrecognized token that names no `Object.prototype` member falls back to
itself, and a token naming an inherited `Object.prototype` member (such as
`toString` or `constructor`) resolves to that inherited member rather than
the raw token; resolution never fails. -/
theorem resolve_label_amended (token name : JsStr)
    (h1 : customPre.isPrefixOf token = false)
    (h2 : token ≠ (":55").data) (h3 : token ≠ ("hour").data)
    (h4 : token ≠ ("rules").data) (h5 : token ≠ ("ad").data)
    (h6 : token ∉ objectProtoKeys) :
    labelResolution token name := by
  refine ⟨?_, by decide, by decide, by decide, by decide, ?_, by decide⟩
  · unfold resolveTypeLabel
    rw [if_pos (List.isPrefixOf_iff_prefix.mpr (List.prefix_append _ _))]
    rw [List.drop_left]
  · unfold resolveTypeLabel
    rw [if_neg (by simp [h1])]
    have hlook : assocLookup token typeLabels = none := by
      simp only [typeLabels, assocLookup,
        if_neg (Ne.symm h2), if_neg (Ne.symm h3),
        if_neg (Ne.symm h4), if_neg (Ne.symm h5)]
    simp only [hlook]
    rw [if_neg h6]

theorem resolve_label_amended_witness :
    customPre.isPrefixOf (("foo").data) = false
    ∧ (("foo").data ≠ (":55").data) ∧ (("foo").data ≠ ("hour").data)
    ∧ (("foo").data ≠ ("rules").data) ∧ (("foo").data ≠ ("ad").data)
    ∧ (("foo").data ∉ objectProtoKeys)
    ∧ labelResolution (("foo").data) (("vip").data) :=
  ⟨by decide, by decide, by decide, by decide, by decide, by decide,
    resolve_label_amended (("foo").data) (("vip").data)
      (by decide) (by decide) (by decide) (by decide) (by decide) (by decide)⟩

/-- Claim C7: running the full refresh twice in a row against the same server
response and at the same reference instant leaves the entire client state —
schedule cache, serialization, custom types and projected upcoming sequence —
identical to running it once. -/
theorem refresh_idempotent (resp : Except JsStr Snapshot) (now : Int)
    (st : ClientState) :
    refreshScheduleFlow resp now (refreshScheduleFlow resp now st)
      = refreshScheduleFlow resp now st := by
  cases resp with
  | error e => rfl
  | ok snap =>
    show applySnapshot snap now (applySnapshot snap now st)
      = applySnapshot snap now st
    rcases snap with ⟨times, cts⟩
    cases cts <;> rfl

/-- Claim C8: every failed mutation — add time, delete time, add custom
type, whether a transport error or a server-reported validation error —
leaves the client state exactly as it was and reports the error message
verbatim; and no mutation flow ends without a visible signal. -/
theorem mutation_failure_handling (msg : JsStr) (fetch : Except JsStr Snapshot)
    (now : Int) (st : ClientState) :
    addTimeFlow (Except.error msg) fetch now st = (st, [Notif.error msg])
    ∧ deleteTimeFlow (Except.error msg) fetch now st = (st, [Notif.error msg])
    ∧ addTypeFlow (Except.error msg) fetch now st = (st, [Notif.error msg])
    ∧ (∀ resp, (addTimeFlow resp fetch now st).2 ≠ [])
    ∧ (∀ resp, (deleteTimeFlow resp fetch now st).2 ≠ [])
    ∧ (∀ resp, (addTypeFlow resp fetch now st).2 ≠ []) := by
  refine ⟨rfl, rfl, rfl, ?_, ?_, ?_⟩ <;>
    · intro resp
      cases resp <;> simp [addTimeFlow, deleteTimeFlow, addTypeFlow]

/-- Claim C9, counterexample: the text `10:00` — not a valid
`HH:MM = token` line — is not skipped: at 09:30 it produces an upcoming item
with no type token, and rendering that item fails (in the browser,
`type.startsWith` throws a TypeError on `undefined`). -/
theorem projector_throw_cex :
    updateUpcomingList 34200000 (("10:00").data)
      = [⟨("10:00").data, none, 30, 36000000⟩]
    ∧ renderItems (updateUpcomingList 34200000 (("10:00").data))
        = Except.error () := by
  exact ⟨by decide, by rfl⟩

/-- Claim C9, amended: for every input text the list-building phase never
fails — lines whose time part does not parse are silently skipped and
produce no output item — but a line lacking `=` whose time still parses to
an in-window occurrence produces an item with a missing type token, and the
rendering phase fails precisely when such an item is present. -/
theorem projector_skip_amended (now : Int) (text : JsStr) :
    projectorSafety now text := by
  refine ⟨?_, ?_, renderItems_ok_iff _⟩
  · intro line hline
    simp [lineToItem, hline]
  · intro it hit
    obtain ⟨line, hl, hli⟩ := mem_updateUpcomingList.mp hit
    exact ⟨line, hl, hli, minutesUntil_le_of_lineToItem hli⟩

/-- Claim C10, counterexample: at now = 10:00:45 the entry at now's own hour
and minute (10:00) rolls over but rounds to 1439 minutes, not 1440; and the
entry 10:01 projects to minutesUntil = 0 although now's seconds are not
zero. -/
theorem seconds_rollover_cex :
    (projectEntry 36045000 10 0).2 = 1439
    ∧ (projectEntry 36045000 10 1).2 = 0
    ∧ (36045000 : Int) % 60000 ≠ 0
    ∧ hourOfDay 36045000 = 10
    ∧ minuteOfHour 36045000 = 0 := by
  exact ⟨by decide, by decide, by decide, by decide, by decide⟩

/-- Claim C10, amended: when `now` has a nonzero sub-minute part, the entry
at `now`'s hour and minute is rolled to the next day with minutesUntil 1440
(sub-minute part at most 30 s) or 1439 (otherwise) — excluded from the
window either way — and minutesUntil = 0 holds exactly when the occurrence
lies within half a minute of `now`, which does not require zero seconds. -/
theorem seconds_rollover_amended (now : Int) (he : now % 60000 ≠ 0) :
    secondsRollover now := by
  refine ⟨?_, ?_, ?_⟩
  · simp only [secondsRollover, projectEntry, hourOfDay, minuteOfHour, dayMs]
    split_ifs <;> omega
  · simp only [projectEntry, hourOfDay, minuteOfHour, dayMs]
    split_ifs <;> omega
  · intro h m
    simp only [projectEntry, dayMs]
    split_ifs <;> constructor <;> intro <;> omega

theorem seconds_rollover_amended_witness :
    (36045000 : Int) % 60000 ≠ 0 ∧ secondsRollover 36045000 :=
  ⟨by decide, seconds_rollover_amended 36045000 (by decide)⟩

end RinkAnnouncer
